import Mathlib

/-!
Verification of the SecureKeep end-to-end encryption engine
(`src/lib/encryption.ts`).

Encoding of the JavaScript world:

* JS strings are lists of UTF-16 code units, and binary buffers
  (`Uint8Array`/`ArrayBuffer`) are lists of byte values; both are encoded
  here as `List Nat`.  Byte-valuedness (`x < 256`) is carried as an
  explicit hypothesis where it matters.
* The platform primitives used by the source — `btoa`/`atob`,
  `crypto.subtle` AES-256-GCM, `TextEncoder`/`TextDecoder`, PBKDF2 — are
  modelled as follows: `btoa`/`atob` are implemented concretely below
  (standard base64 and the WHATWG forgiving-base64 decode that `atob`
  performs); AES-GCM, the UTF-8 codec and PBKDF2 are fields of a
  `Platform` structure whose propositional fields state the idealized
  AEAD/codec contract (GCM's overwhelming-probability guarantees are
  idealized as certainties, the standard symbolic model).
* Exceptions are modelled with `Except CryptoError`: `atob`'s
  `InvalidCharacterError` is `MalformedEncoding`, `crypto.subtle.decrypt`'s
  `OperationError` is `DecryptionFailed`, and the service's
  "Encryption service not initialized" `Error` is `NotInitialized`,
  following the spec's error taxonomy (§7).
* `crypto.getRandomValues` draws are nondeterministic; each encryption
  call's freshly drawn 12-byte IV is passed as an explicit argument.
-/

/-- Error taxonomy of the spec (§7), standing for the JS exceptions the
source lets propagate. -/
inductive CryptoError where
  | CryptoUnavailable
  | MalformedEncoding
  | DecryptionFailed
  | NotInitialized
deriving DecidableEq

/-- Constant `IV_LENGTH` from the source: 12-byte (96-bit) AES-GCM nonce. -/
def IV_LENGTH : Nat := 12

/-- Constant `SALT_LENGTH` from the source: 16-byte PBKDF2 salt. -/
def SALT_LENGTH : Nat := 16

/-- Constant `PBKDF2_ITERATIONS` from the source. -/
def PBKDF2_ITERATIONS : Nat := 600000

/-- Constant `KEY_LENGTH` from the source: 256-bit AES key. -/
def KEY_LENGTH : Nat := 256

/-! ## Bit flipping on byte lists (tamper model) -/

/-- Flip bit `t` of the value `b`: the arithmetic form of `b XOR 2^t`. -/
def flipBitVal (b t : Nat) : Nat :=
  if b / 2 ^ t % 2 = 1 then b - 2 ^ t else b + 2 ^ t

/-- Flip bit `j` of a list of 8-bit values: bit `j % 8` of element `j / 8`. -/
def listFlip (l : List Nat) (j : Nat) : List Nat :=
  l.set (j / 8) (flipBitVal (l.getD (j / 8) 0) (j % 8))

/-! ## Base64: the `btoa` / `atob` pair used by the source

`arrayBufferToBase64` builds a binary string from the bytes and calls
`btoa`; `base64ToArrayBuffer` calls `atob` and reads the char codes back.
Since `String.fromCharCode`/`charCodeAt` are identities on the code-unit
representation, the composites are exactly base64 encode and WHATWG
forgiving-base64 decode on `List Nat`. -/

/-- Character code of the base64 digit with value `v` (`A-Z a-z 0-9 + /`). -/
def b64char (v : Nat) : Nat :=
  if v < 26 then v + 65
  else if v < 52 then v + 71
  else if v < 62 then v - 4
  else if v = 62 then 43
  else 47

/-- Value of a base64 digit character, `none` for characters outside the
alphabet (this includes the padding character 61, i.e. the equals sign). -/
def charVal (c : Nat) : Option Nat :=
  if 65 ≤ c ∧ c ≤ 90 then some (c - 65)
  else if 97 ≤ c ∧ c ≤ 122 then some (c - 71)
  else if 48 ≤ c ∧ c ≤ 57 then some (c + 4)
  else if c = 43 then some 62
  else if c = 47 then some 63
  else none

/-- ASCII whitespace, which forgiving-base64 decode removes first. -/
def isB64Ws (c : Nat) : Bool :=
  c == 9 || c == 10 || c == 12 || c == 13 || c == 32

/-- Base64 encoding of a byte list: the behaviour of
`btoa(String.fromCharCode(...bytes))`, hence of `arrayBufferToBase64`. -/
def b64encode : List Nat → List Nat
  | b1 :: b2 :: b3 :: rest =>
      b64char (b1 / 4) :: b64char (b1 % 4 * 16 + b2 / 16) ::
      b64char (b2 % 16 * 4 + b3 / 64) :: b64char (b3 % 64) :: b64encode rest
  | [b1, b2] => [b64char (b1 / 4), b64char (b1 % 4 * 16 + b2 / 16), b64char (b2 % 16 * 4), 61]
  | [b1] => [b64char (b1 / 4), b64char (b1 % 4 * 16), 61, 61]
  | [] => []

/-- Step 2 of forgiving-base64 decode: when the length is a multiple of
four, remove one or two trailing padding characters. -/
def dropPad (l : List Nat) : List Nat :=
  if l.length % 4 = 0 then
    if l.getLast? = some 61 then
      if l.dropLast.getLast? = some 61 then l.dropLast.dropLast else l.dropLast
    else l
  else l

/-- Map every character to its base64 digit value, failing on the first
character outside the alphabet. -/
def valsOf : List Nat → Option (List Nat)
  | [] => some []
  | c :: rest =>
      match charVal c, valsOf rest with
      | some v, some vs => some (v :: vs)
      | _, _ => none

/-- Reassemble bytes from 6-bit digit values (final step of
forgiving-base64; a trailing group of 2 or 3 digits yields 1 or 2 bytes,
discarding the leftover low bits). -/
def decodeVals : List Nat → List Nat
  | v1 :: v2 :: v3 :: v4 :: rest =>
      (v1 * 4 + v2 / 16) :: (v2 % 16 * 16 + v3 / 4) :: (v3 % 4 * 64 + v4) :: decodeVals rest
  | [v1, v2] => [v1 * 4 + v2 / 16]
  | [v1, v2, v3] => [v1 * 4 + v2 / 16, v2 % 16 * 16 + v3 / 4]
  | _ => []

/-- WHATWG forgiving-base64 decode, the behaviour of `atob`: strip ASCII
whitespace, strip canonical padding, reject length 1 mod 4 and characters
outside the alphabet, then reassemble bytes.  `none` models the thrown
`InvalidCharacterError`. -/
def b64decode (s : List Nat) : Option (List Nat) :=
  let t := dropPad (s.filter (fun c => !isB64Ws c))
  if t.length % 4 = 1 then none
  else
    match valsOf t with
    | none => none
    | some vs => some (decodeVals vs)

/-! ## The platform: Web Crypto AES-256-GCM, UTF-8 codec, PBKDF2

`enc key iv p` models `crypto.subtle.encrypt({name:'AES-GCM', iv}, key, p)`
and `dec key iv c` models the corresponding `decrypt` (`none` standing for
a rejected promise with `OperationError`).  The propositional fields are
the idealized AEAD contract: decryption inverts encryption; a ciphertext
only decrypts to the plaintext it was honestly produced from
(authentication); the ciphertext is 16 bytes (the GCM tag) longer than
the plaintext; ciphertexts determine the 12-byte nonce and plaintext
(nonce binding); and a single flipped bit in a ciphertext is always
detected — GCM's `1 - 2^-128` forgery bound idealized to certainty.
`encodeT`/`decodeT` model `TextEncoder`/`TextDecoder` (a lossless codec
from code points to bytes), `pbkdf2` models `crypto.subtle.deriveKey`
with PBKDF2/SHA-256. -/
structure Platform where
  enc : List Nat → List Nat → List Nat → List Nat
  dec : List Nat → List Nat → List Nat → Option (List Nat)
  encodeT : List Nat → List Nat
  decodeT : List Nat → List Nat
  pbkdf2 : List Nat → List Nat → Nat → Nat → List Nat
  dec_enc : ∀ k iv p, dec k iv (enc k iv p) = some p
  auth : ∀ k iv c p, dec k iv c = some p → c = enc k iv p
  enc_len : ∀ k iv p, (enc k iv p).length = p.length + 16
  enc_bytes : ∀ k iv p, (∀ x ∈ iv, x < 256) → (∀ x ∈ p, x < 256) →
    ∀ x ∈ enc k iv p, x < 256
  enc_inj : ∀ k iv iv' p p', iv.length = 12 → iv'.length = 12 →
    enc k iv p = enc k iv' p' → iv = iv' ∧ p = p'
  flip_reject : ∀ k iv p j, j < 8 * (enc k iv p).length →
    dec k iv (listFlip (enc k iv p) j) = none
  encodeT_bytes : ∀ s, (∀ x ∈ s, x < 1114112) → ∀ x ∈ encodeT s, x < 256
  decodeT_encodeT : ∀ s, decodeT (encodeT s) = s

/-! ## The source functions (`src/lib/encryption.ts`) -/

/-- Function `arrayBufferToBase64` (lines 25-32): byte list to base64
text via `btoa`. -/
def arrayBufferToBase64 (buffer : List Nat) : List Nat :=
  b64encode buffer

/-- Function `base64ToArrayBuffer` (lines 37-44): base64 text to byte
list via `atob`; `none` models the propagated `InvalidCharacterError`. -/
def base64ToArrayBuffer (base64 : List Nat) : Option (List Nat) :=
  b64decode base64

/-- Function `deriveKeyFromPassword` (lines 61-92): decode the salt,
then derive an AES-256-GCM key with PBKDF2/SHA-256 at 600000 iterations
over the UTF-8 encoded password. -/
def deriveKeyFromPassword (P : Platform) (password salt : List Nat) :
    Except CryptoError (List Nat) :=
  match base64ToArrayBuffer salt with
  | none => .error .MalformedEncoding
  | some saltBuffer =>
      .ok (P.pbkdf2 (P.encodeT password) saltBuffer PBKDF2_ITERATIONS KEY_LENGTH)

/-- Function `encryptString` (lines 101-125): UTF-8 encode the
plaintext, AES-GCM encrypt under the freshly drawn 12-byte `iv`, and
return `base64(iv || ciphertext_with_tag)`. -/
def encryptString (P : Platform) (iv : List Nat) (plaintext key : List Nat) :
    List Nat :=
  let encodedPlaintext := P.encodeT plaintext
  let ciphertext := P.enc key iv encodedPlaintext
  arrayBufferToBase64 (iv ++ ciphertext)

/-- Function `decryptString` (lines 134-156): base64 decode, split the
first `IV_LENGTH` bytes as the nonce, AES-GCM decrypt the remainder,
UTF-8 decode the result. -/
def decryptString (P : Platform) (ciphertext key : List Nat) :
    Except CryptoError (List Nat) :=
  match base64ToArrayBuffer ciphertext with
  | none => .error .MalformedEncoding
  | some combined =>
      let iv := combined.take IV_LENGTH
      let encryptedData := combined.drop IV_LENGTH
      match P.dec key iv encryptedData with
      | none => .error .DecryptionFailed
      | some decrypted => .ok (P.decodeT decrypted)

/-- Function `encryptBinary` (lines 165-188): same as `encryptString`
but on raw bytes, no text codec. -/
def encryptBinary (P : Platform) (iv : List Nat) (data key : List Nat) :
    List Nat :=
  let ciphertext := P.enc key iv data
  arrayBufferToBase64 (iv ++ ciphertext)

/-- Function `decryptBinary` (lines 197-217): same as `decryptString`
but returning raw bytes, no text codec. -/
def decryptBinary (P : Platform) (ciphertext key : List Nat) :
    Except CryptoError (List Nat) :=
  match base64ToArrayBuffer ciphertext with
  | none => .error .MalformedEncoding
  | some combined =>
      let iv := combined.take IV_LENGTH
      let encryptedData := combined.drop IV_LENGTH
      match P.dec key iv encryptedData with
      | none => .error .DecryptionFailed
      | some decrypted => .ok decrypted

/-- Class `EncryptionService` state (lines 296-298): the in-memory key
and salt, `none` when not initialized. -/
structure EncryptionService where
  key : Option (List Nat)
  salt : Option (List Nat)

/-- Method `initialize` (lines 304-307): derive and store the key. -/
def EncryptionService.initialize (P : Platform) (_svc : EncryptionService)
    (password salt : List Nat) : Except CryptoError EncryptionService :=
  match deriveKeyFromPassword P password salt with
  | .error e => .error e
  | .ok k => .ok { key := some k, salt := some salt }

/-- Method `isInitialized` (lines 312-314). -/
def EncryptionService.isInitialized (svc : EncryptionService) : Bool :=
  svc.key.isSome

/-- Method `clear` (lines 320-323): drop the key and salt. -/
def EncryptionService.clear (_svc : EncryptionService) : EncryptionService :=
  { key := none, salt := none }

/-- Method `encryptNote` (lines 328-335): encrypt title and content
under the held key, each with its own fresh IV. -/
def EncryptionService.encryptNote (P : Platform) (svc : EncryptionService)
    (iv1 iv2 title content : List Nat) :
    Except CryptoError (List Nat × List Nat) :=
  match svc.key with
  | none => .error .NotInitialized
  | some k => .ok (encryptString P iv1 title k, encryptString P iv2 content k)

/-- Method `decryptNote` (lines 340-347): decrypt the title; decrypt the
content only when it is nonempty (JS truthiness of the content string),
otherwise return the empty string for it. -/
def EncryptionService.decryptNote (P : Platform) (svc : EncryptionService)
    (title content : List Nat) : Except CryptoError (List Nat × List Nat) :=
  match svc.key with
  | none => .error .NotInitialized
  | some k =>
      match decryptString P title k with
      | .error e => .error e
      | .ok t =>
          match if content.isEmpty then .ok [] else decryptString P content k with
          | .error e => .error e
          | .ok c => .ok (t, c)

/-- Method `encryptImage` (lines 352-355). -/
def EncryptionService.encryptImage (P : Platform) (svc : EncryptionService)
    (iv imageData : List Nat) : Except CryptoError (List Nat) :=
  match svc.key with
  | none => .error .NotInitialized
  | some k => .ok (encryptBinary P iv imageData k)

/-- Method `decryptImage` (lines 360-363). -/
def EncryptionService.decryptImage (P : Platform) (svc : EncryptionService)
    (encryptedData : List Nat) : Except CryptoError (List Nat) :=
  match svc.key with
  | none => .error .NotInitialized
  | some k => decryptBinary P encryptedData k

/-- Method `encryptLabel` (lines 368-371). -/
def EncryptionService.encryptLabel (P : Platform) (svc : EncryptionService)
    (iv name : List Nat) : Except CryptoError (List Nat) :=
  match svc.key with
  | none => .error .NotInitialized
  | some k => .ok (encryptString P iv name k)

/-- Method `decryptLabel` (lines 376-379). -/
def EncryptionService.decryptLabel (P : Platform) (svc : EncryptionService)
    (name : List Nat) : Except CryptoError (List Nat) :=
  match svc.key with
  | none => .error .NotInitialized
  | some k => decryptString P name k

/-! ## Helper lemmas: bit flipping -/

theorem flipBitVal_ne (b t : Nat) : flipBitVal b t ≠ b := by
  unfold flipBitVal
  split
  · rename_i h
    have h1 : 2 ^ t ≤ b := by
      rcases Nat.lt_or_ge b (2 ^ t) with hlt | hge
      · rw [Nat.div_eq_of_lt hlt] at h; simp at h
      · exact hge
    have h2 : 0 < 2 ^ t := Nat.pos_pow_of_pos t (by omega)
    omega
  · have h2 : 0 < 2 ^ t := Nat.pos_pow_of_pos t (by omega)
    omega

theorem flipBitVal_lt_256 (b t : Nat) (hb : b < 256) (ht : t < 8) :
    flipBitVal b t < 256 := by
  unfold flipBitVal
  interval_cases t <;> split <;> omega

/-! ## Helper lemmas: base64 characters -/

theorem charVal_b64char (v : Nat) (h : v < 64) : charVal (b64char v) = some v := by
  unfold b64char charVal
  split_ifs <;> (try simp only [Option.some.injEq]) <;> omega

theorem b64char_ne_61 (v : Nat) : b64char v ≠ 61 := by
  unfold b64char
  split_ifs <;> omega

theorem b64char_not_ws (v : Nat) : isB64Ws (b64char v) = false := by
  unfold b64char isB64Ws
  split_ifs <;> simp <;> omega

theorem b64char_lt_256 (v : Nat) (h : v < 64) : b64char v < 256 := by
  unfold b64char
  split_ifs <;> omega

/-! ## Helper lemmas: the body and padding decomposition of `b64encode` -/

/-- Padding-free part of the base64 encoding (proof decomposition). -/
def b64body : List Nat → List Nat
  | b1 :: b2 :: b3 :: rest =>
      b64char (b1 / 4) :: b64char (b1 % 4 * 16 + b2 / 16) ::
      b64char (b2 % 16 * 4 + b3 / 64) :: b64char (b3 % 64) :: b64body rest
  | [b1, b2] => [b64char (b1 / 4), b64char (b1 % 4 * 16 + b2 / 16), b64char (b2 % 16 * 4)]
  | [b1] => [b64char (b1 / 4), b64char (b1 % 4 * 16)]
  | [] => []

/-- Digit values read back from the body (proof decomposition). -/
def rawVals : List Nat → List Nat
  | b1 :: b2 :: b3 :: rest =>
      (b1 / 4) :: (b1 % 4 * 16 + b2 / 16) :: (b2 % 16 * 4 + b3 / 64) :: (b3 % 64) :: rawVals rest
  | [b1, b2] => [b1 / 4, b1 % 4 * 16 + b2 / 16, b2 % 16 * 4]
  | [b1] => [b1 / 4, b1 % 4 * 16]
  | [] => []

theorem b64encode_eq_body_pad (b : List Nat) :
    b64encode b = b64body b ++
      (if b.length % 3 = 0 then [] else if b.length % 3 = 1 then [61, 61] else [61]) := by
  match b with
  | [] => rfl
  | [b1] => rfl
  | [b1, b2] => rfl
  | b1 :: b2 :: b3 :: rest =>
      have ih := b64encode_eq_body_pad rest
      have hlen : (b1 :: b2 :: b3 :: rest).length % 3 = rest.length % 3 := by
        simp [List.length_cons]; omega
      rw [hlen]
      simp only [b64encode, b64body, ih, List.cons_append]

theorem b64body_mem_ne_61 (b : List Nat) : ∀ c ∈ b64body b, c ≠ 61 := by
  match b with
  | [] => intro c hc; simp [b64body] at hc
  | [b1] =>
      intro c hc
      simp [b64body] at hc
      rcases hc with h | h <;> (subst h; exact b64char_ne_61 _)
  | [b1, b2] =>
      intro c hc
      simp [b64body] at hc
      rcases hc with h | h | h <;> (subst h; exact b64char_ne_61 _)
  | b1 :: b2 :: b3 :: rest =>
      intro c hc
      simp only [b64body, List.mem_cons] at hc
      rcases hc with h | h | h | h | h
      · subst h; exact b64char_ne_61 _
      · subst h; exact b64char_ne_61 _
      · subst h; exact b64char_ne_61 _
      · subst h; exact b64char_ne_61 _
      · exact b64body_mem_ne_61 rest c h

theorem b64body_mem_not_ws (b : List Nat) : ∀ c ∈ b64body b, isB64Ws c = false := by
  match b with
  | [] => intro c hc; simp [b64body] at hc
  | [b1] =>
      intro c hc
      simp [b64body] at hc
      rcases hc with h | h <;> (subst h; exact b64char_not_ws _)
  | [b1, b2] =>
      intro c hc
      simp [b64body] at hc
      rcases hc with h | h | h <;> (subst h; exact b64char_not_ws _)
  | b1 :: b2 :: b3 :: rest =>
      intro c hc
      simp only [b64body, List.mem_cons] at hc
      rcases hc with h | h | h | h | h
      · subst h; exact b64char_not_ws _
      · subst h; exact b64char_not_ws _
      · subst h; exact b64char_not_ws _
      · subst h; exact b64char_not_ws _
      · exact b64body_mem_not_ws rest c h

theorem b64body_len (b : List Nat) :
    (b64body b).length =
      (if b.length % 3 = 0 then b.length / 3 * 4
       else if b.length % 3 = 1 then b.length / 3 * 4 + 2
       else b.length / 3 * 4 + 3) := by
  match b with
  | [] => rfl
  | [b1] => simp [b64body]
  | [b1, b2] => simp [b64body]
  | b1 :: b2 :: b3 :: rest =>
      have ih := b64body_len rest
      simp only [b64body, List.length_cons, ih]
      have h3 : rest.length + 1 + 1 + 1 = rest.length + 3 := by omega
      rw [h3]
      have hm : (rest.length + 3) % 3 = rest.length % 3 := by omega
      have hd : (rest.length + 3) / 3 = rest.length / 3 + 1 := by omega
      rw [hm, hd]
      split_ifs <;> omega

/-! ## Helper lemmas: padding removal and digit mapping -/

theorem filter_eq_self_of_mem {p : Nat → Bool} :
    ∀ l : List Nat, (∀ a ∈ l, p a = true) → l.filter p = l := by
  intro l h
  induction l with
  | nil => rfl
  | cons a as ih =>
      have ha : p a = true := h a (by simp)
      simp [List.filter_cons, ha, ih fun x hx => h x (by simp [hx])]

theorem getLast?_ne_61 (l : List Nat) (h61 : ∀ c ∈ l, c ≠ 61) :
    ¬ l.getLast? = some 61 := by
  rcases List.eq_nil_or_concat l with rfl | ⟨L, b, rfl⟩
  · simp
  · rw [List.concat_eq_append, List.getLast?_concat]
    intro h
    injection h with hb
    exact h61 b (by simp) hb

theorem dropPad_no_61 (l : List Nat) (hlen : l.length % 4 = 0)
    (h61 : ∀ c ∈ l, c ≠ 61) : dropPad l = l := by
  unfold dropPad
  rw [if_pos hlen, if_neg (getLast?_ne_61 l h61)]

theorem dropPad_one (l : List Nat) (hlen : l.length % 4 = 3)
    (h61 : ∀ c ∈ l, c ≠ 61) : dropPad (l ++ [61]) = l := by
  unfold dropPad
  have hl : (l ++ [61]).length % 4 = 0 := by simp; omega
  rw [if_pos hl, if_pos (List.getLast?_concat _), List.dropLast_concat,
    if_neg (getLast?_ne_61 l h61)]

theorem dropPad_two (l : List Nat) (hlen : l.length % 4 = 2) :
    dropPad (l ++ [61, 61]) = l := by
  unfold dropPad
  have hl2 : ((l ++ [61]) ++ [61]).length % 4 = 0 := by simp; omega
  have hsplit : l ++ [61, 61] = (l ++ [61]) ++ [61] := by simp
  rw [hsplit, if_pos hl2, if_pos (List.getLast?_concat _), List.dropLast_concat,
    if_pos (List.getLast?_concat _), List.dropLast_concat]

theorem valsOf_body (b : List Nat) (hb : ∀ x ∈ b, x < 256) :
    valsOf (b64body b) = some (rawVals b) := by
  match b with
  | [] => rfl
  | [b1] =>
      have h1 : b1 < 256 := hb b1 (by simp)
      simp only [b64body, rawVals, valsOf,
        charVal_b64char (b1 / 4) (by omega),
        charVal_b64char (b1 % 4 * 16) (by omega)]
  | [b1, b2] =>
      have h1 : b1 < 256 := hb b1 (by simp)
      have h2 : b2 < 256 := hb b2 (by simp)
      simp only [b64body, rawVals, valsOf,
        charVal_b64char (b1 / 4) (by omega),
        charVal_b64char (b1 % 4 * 16 + b2 / 16) (by omega),
        charVal_b64char (b2 % 16 * 4) (by omega)]
  | b1 :: b2 :: b3 :: rest =>
      have h1 : b1 < 256 := hb b1 (by simp)
      have h2 : b2 < 256 := hb b2 (by simp)
      have h3 : b3 < 256 := hb b3 (by simp)
      have ih := valsOf_body rest (fun x hx => hb x (by simp [hx]))
      simp only [b64body, rawVals, valsOf, ih,
        charVal_b64char (b1 / 4) (by omega),
        charVal_b64char (b1 % 4 * 16 + b2 / 16) (by omega),
        charVal_b64char (b2 % 16 * 4 + b3 / 64) (by omega),
        charVal_b64char (b3 % 64) (by omega)]

theorem decodeVals_rawVals (b : List Nat) (hb : ∀ x ∈ b, x < 256) :
    decodeVals (rawVals b) = b := by
  match b with
  | [] => rfl
  | [b1] =>
      have h1 : b1 < 256 := hb b1 (by simp)
      simp only [rawVals, decodeVals, List.cons.injEq, and_true]
      omega
  | [b1, b2] =>
      have h1 : b1 < 256 := hb b1 (by simp)
      have h2 : b2 < 256 := hb b2 (by simp)
      simp only [rawVals, decodeVals, List.cons.injEq, and_true]
      constructor <;> omega
  | b1 :: b2 :: b3 :: rest =>
      have h1 : b1 < 256 := hb b1 (by simp)
      have h2 : b2 < 256 := hb b2 (by simp)
      have h3 : b3 < 256 := hb b3 (by simp)
      have ih := decodeVals_rawVals rest (fun x hx => hb x (by simp [hx]))
      simp only [rawVals, decodeVals, ih, List.cons.injEq, and_true]
      refine ⟨by omega, by omega, by omega⟩

/-! ## The base64 round trip and its corollaries -/

theorem b64decode_b64encode (b : List Nat) (hb : ∀ x ∈ b, x < 256) :
    b64decode (b64encode b) = some b := by
  have hpadsplit := b64encode_eq_body_pad b
  have hno_ws : ∀ c ∈ b64encode b, (!isB64Ws c) = true := by
    intro c hc
    rw [hpadsplit] at hc
    rcases List.mem_append.mp hc with h | h
    · simp [b64body_mem_not_ws b c h]
    · have : c = 61 := by
        split_ifs at h <;> simp at h <;> tauto
      subst this
      rfl
  have hfilter : (b64encode b).filter (fun c => !isB64Ws c) = b64encode b :=
    filter_eq_self_of_mem _ hno_ws
  have hbodylen := b64body_len b
  have hdrop : dropPad (b64encode b) = b64body b := by
    rw [hpadsplit]
    split_ifs with h0 h1
    · rw [List.append_nil]
      refine dropPad_no_61 _ ?_ (b64body_mem_ne_61 b)
      rw [hbodylen, if_pos h0]
      omega
    · refine dropPad_two _ ?_
      rw [hbodylen, if_neg h0, if_pos h1]
      omega
    · refine dropPad_one _ ?_ (b64body_mem_ne_61 b)
      rw [hbodylen, if_neg h0, if_neg h1]
      omega
  have hmod : (b64body b).length % 4 ≠ 1 := by
    rw [hbodylen]
    split_ifs <;> omega
  unfold b64decode
  simp only [hfilter, hdrop]
  rw [if_neg hmod, valsOf_body b hb]
  exact congrArg some (decodeVals_rawVals b hb)

theorem b64encode_len_mod4 (b : List Nat) : (b64encode b).length % 4 = 0 := by
  match b with
  | [] => rfl
  | [b1] => simp [b64encode]
  | [b1, b2] => simp [b64encode]
  | b1 :: b2 :: b3 :: rest =>
      have ih := b64encode_len_mod4 rest
      simp only [b64encode, List.length_cons]
      omega

theorem b64encode_inj (b b' : List Nat) (hb : ∀ x ∈ b, x < 256)
    (hb' : ∀ x ∈ b', x < 256) (h : b64encode b = b64encode b') : b = b' := by
  have h1 := b64decode_b64encode b hb
  have h2 := b64decode_b64encode b' hb'
  rw [h, h2] at h1
  exact (Option.some.injEq _ _ ▸ h1.symm)

theorem b64encode_ne_nil (b : List Nat) (h : b ≠ []) : b64encode b ≠ [] := by
  match b with
  | [] => exact absurd rfl h
  | [b1] => simp [b64encode]
  | [b1, b2] => simp [b64encode]
  | b1 :: b2 :: b3 :: rest => simp [b64encode]

/-! ## Helper lemmas: lists, element updates, sums -/

theorem set_getD_self (l : List Nat) (i b : Nat) (h : i < l.length) :
    (l.set i b).getD i 0 = b := by
  induction l generalizing i with
  | nil => simp at h
  | cons a as ih =>
      cases i with
      | zero => rfl
      | succ n =>
          simp only [List.set, List.getD_cons_succ]
          exact ih n (by simpa using h)

theorem set_ne_self (l : List Nat) (i b : Nat) (h : i < l.length)
    (hb : b ≠ l.getD i 0) : l.set i b ≠ l := by
  intro heq
  have hd := set_getD_self l i b h
  rw [heq] at hd
  exact hb hd.symm

theorem mem_set_cases (l : List Nat) (i b x : Nat) (hx : x ∈ l.set i b) :
    x ∈ l ∨ x = b := by
  induction l generalizing i with
  | nil => simp [List.set] at hx
  | cons a as ih =>
      cases i with
      | zero =>
          simp only [List.set, List.mem_cons] at hx
          rcases hx with h | h
          · exact Or.inr h
          · exact Or.inl (List.mem_cons_of_mem a h)
      | succ n =>
          simp only [List.set, List.mem_cons] at hx
          rcases hx with h | h
          · exact Or.inl (by simp [h])
          · rcases ih n h with h2 | h2
            · exact Or.inl (List.mem_cons_of_mem a h2)
            · exact Or.inr h2

theorem sum_set_getD (l : List Nat) (i b : Nat) (h : i < l.length) :
    (l.set i b).sum + l.getD i 0 = l.sum + b := by
  induction l generalizing i with
  | nil => simp at h
  | cons a as ih =>
      cases i with
      | zero => simp [List.set]; omega
      | succ n =>
          simp only [List.set, List.sum_cons, List.getD_cons_succ]
          have := ih n (by simpa using h)
          omega

theorem listFlip_length (l : List Nat) (j : Nat) :
    (listFlip l j).length = l.length := by
  simp [listFlip]

theorem listFlip_bytes (l : List Nat) (j : Nat) (hl : ∀ x ∈ l, x < 256)
    (hj : j < 8 * l.length) : ∀ x ∈ listFlip l j, x < 256 := by
  intro x hx
  rcases mem_set_cases _ _ _ _ hx with h | h
  · exact hl x h
  · subst h
    have hidx : j / 8 < l.length := by omega
    have hd : l.getD (j / 8) 0 < 256 := by
      rw [List.getD_eq_getElem l 0 hidx]
      exact hl _ (List.getElem_mem hidx)
    exact flipBitVal_lt_256 _ _ hd (by omega)

theorem listFlip_append_left (l1 l2 : List Nat) (j : Nat) (hj : j < 8 * l1.length) :
    listFlip (l1 ++ l2) j = listFlip l1 j ++ l2 := by
  unfold listFlip
  have hidx : j / 8 < l1.length := by omega
  rw [List.getD_append _ _ _ _ hidx, List.set_append, if_pos hidx]

theorem listFlip_append_right (l1 l2 : List Nat) (j : Nat) (hj : 8 * l1.length ≤ j) :
    listFlip (l1 ++ l2) j = l1 ++ listFlip l2 (j - 8 * l1.length) := by
  unfold listFlip
  have hidx : l1.length ≤ j / 8 := by omega
  rw [List.getD_append_right _ _ _ _ hidx, List.set_append, if_neg (by omega)]
  have h1 : j / 8 - l1.length = (j - 8 * l1.length) / 8 := by omega
  have h2 : j % 8 = (j - 8 * l1.length) % 8 := by omega
  rw [h1, h2]

theorem flipBitVal_cases (x t : Nat) :
    (flipBitVal x t = x - 2 ^ t ∧ 2 ^ t ≤ x) ∨ flipBitVal x t = x + 2 ^ t := by
  unfold flipBitVal
  split
  · rename_i h
    left
    refine ⟨rfl, ?_⟩
    rcases Nat.lt_or_ge x (2 ^ t) with hlt | hge
    · rw [Nat.div_eq_of_lt hlt] at h; simp at h
    · exact hge
  · right; rfl

theorem two_pow_bounds (t : Nat) (ht : t < 8) : 0 < 2 ^ t ∧ 2 ^ t < 256 := by
  constructor
  · exact Nat.pos_pow_of_pos t (by omega)
  · calc 2 ^ t < 2 ^ 8 := Nat.pow_lt_pow_right (by omega) ht
    _ = 256 := rfl

/-! ## A concrete platform witnessing the idealized AEAD contract

The toy cipher appends a 16-byte tag holding a copy of the (truncated or
zero-padded) 12-byte nonce and a checksum of the plaintext; it exists
only so that the abstract theorems below can be instantiated on concrete
inputs. -/

/-- Truncate or zero-pad a list to exactly 12 entries. -/
def fitTo12 (iv : List Nat) : List Nat :=
  (iv ++ List.replicate 12 0).take 12

/-- Tag of the toy cipher: nonce copy plus plaintext checksum. -/
def toyTag (iv p : List Nat) : List Nat :=
  fitTo12 iv ++ [p.sum % 256, 0, 0, 0]

/-- Encryption of the toy cipher. -/
def toyEnc (_k iv p : List Nat) : List Nat :=
  p ++ toyTag iv p

/-- Decryption of the toy cipher: recompute and compare the tag. -/
def toyDec (_k iv ed : List Nat) : Option (List Nat) :=
  if 16 ≤ ed.length then
    if ed = ed.take (ed.length - 16) ++ toyTag iv (ed.take (ed.length - 16))
    then some (ed.take (ed.length - 16)) else none
  else none

/-- Toy text codec: each code point becomes four base-256 digits. -/
def toyEncodeT : List Nat → List Nat
  | [] => []
  | v :: rest =>
      v % 256 :: v / 256 % 256 :: v / 65536 % 256 :: v / 16777216 :: toyEncodeT rest

/-- Inverse of the toy text codec. -/
def toyDecodeT : List Nat → List Nat
  | b0 :: b1 :: b2 :: b3 :: rest =>
      (b0 + 256 * b1 + 65536 * b2 + 16777216 * b3) :: toyDecodeT rest
  | _ => []

theorem fitTo12_length (iv : List Nat) : (fitTo12 iv).length = 12 := by
  simp [fitTo12, List.length_take]

theorem fitTo12_of_len12 (iv : List Nat) (h : iv.length = 12) : fitTo12 iv = iv := by
  unfold fitTo12
  rw [← h, List.take_left]

theorem toyTag_length (iv p : List Nat) : (toyTag iv p).length = 16 := by
  simp [toyTag, fitTo12_length]

theorem toyEnc_length (k iv p : List Nat) : (toyEnc k iv p).length = p.length + 16 := by
  simp [toyEnc, toyTag_length]

theorem toyEnc_take (k iv p : List Nat) :
    (toyEnc k iv p).take ((toyEnc k iv p).length - 16) = p := by
  rw [toyEnc_length]
  have h : p.length + 16 - 16 = p.length := by omega
  rw [h]
  exact List.take_left p (toyTag iv p)

theorem toyDec_toyEnc (k iv p : List Nat) : toyDec k iv (toyEnc k iv p) = some p := by
  unfold toyDec
  rw [if_pos (by rw [toyEnc_length]; omega), toyEnc_take,
    if_pos (show toyEnc k iv p = p ++ toyTag iv p from rfl)]

theorem toyDec_auth (k iv ed p : List Nat) (h : toyDec k iv ed = some p) :
    ed = toyEnc k iv p := by
  unfold toyDec at h
  split_ifs at h with h1 h2
  · injection h with h3
    rw [← h3]
    exact h2

theorem toyEnc_bytes (k iv p : List Nat) (hiv : ∀ x ∈ iv, x < 256)
    (hp : ∀ x ∈ p, x < 256) : ∀ x ∈ toyEnc k iv p, x < 256 := by
  intro x hx
  simp only [toyEnc, toyTag, List.mem_append, List.mem_cons] at hx
  rcases hx with h | h | h
  · exact hp x h
  · have hmem : x ∈ iv ++ List.replicate 12 0 := List.mem_of_mem_take h
    rcases List.mem_append.mp hmem with h2 | h2
    · exact hiv x h2
    · rw [List.eq_of_mem_replicate h2]; omega
  · rcases h with h | h | h | h
    · rw [h]; exact Nat.mod_lt _ (by omega)
    · rw [h]; omega
    · rw [h]; omega
    · simp at h
      rw [h]; omega

theorem toyEnc_inj (k iv iv' p p' : List Nat) (h12 : iv.length = 12)
    (h12' : iv'.length = 12) (h : toyEnc k iv p = toyEnc k iv' p') :
    iv = iv' ∧ p = p' := by
  unfold toyEnc at h
  have hlen : p.length = p'.length := by
    have := congrArg List.length h
    simp only [List.length_append, toyTag_length] at this
    omega
  rcases List.append_inj h hlen with ⟨hpe, hte⟩
  unfold toyTag at hte
  have hfe : fitTo12 iv = fitTo12 iv' := by
    have hlf : (fitTo12 iv).length = (fitTo12 iv').length := by
      rw [fitTo12_length, fitTo12_length]
    exact (List.append_inj hte hlf).1
  rw [fitTo12_of_len12 iv h12, fitTo12_of_len12 iv' h12'] at hfe
  exact ⟨hfe, hpe⟩

theorem toyDec_flip (k iv p : List Nat) (j : Nat)
    (hj : j < 8 * (toyEnc k iv p).length) :
    toyDec k iv (listFlip (toyEnc k iv p) j) = none := by
  have htag : (toyTag iv p).length = 16 := toyTag_length iv p
  have henclen : (toyEnc k iv p).length = p.length + 16 := toyEnc_length k iv p
  have hi_lt : j / 8 < p.length + 16 := by omega
  have ht_lt : j % 8 < 8 := by omega
  by_cases hcase : j / 8 < p.length
  · -- flip in the body: checksum mismatch
    have hflip : listFlip (toyEnc k iv p) j = listFlip p j ++ toyTag iv p := by
      unfold toyEnc
      exact listFlip_append_left p (toyTag iv p) j (by omega)
    set x := p.getD (j / 8) 0 with hx
    set q := listFlip p j with hq
    have hqlen : q.length = p.length := listFlip_length p j
    have hsum : q.sum + x = p.sum + flipBitVal x (j % 8) := by
      rw [hq]
      exact sum_set_getD p (j / 8) _ hcase
    have hmod : q.sum % 256 ≠ p.sum % 256 := by
      have h2t := two_pow_bounds (j % 8) ht_lt
      rcases flipBitVal_cases x (j % 8) with ⟨he, hle⟩ | he <;> rw [he] at hsum <;> omega
    rw [hflip]
    unfold toyDec
    have hlen2 : (q ++ toyTag iv p).length = q.length + 16 := by
      simp [toyTag_length]
    rw [if_pos (by omega)]
    have htake : (q ++ toyTag iv p).take ((q ++ toyTag iv p).length - 16) = q := by
      rw [hlen2]
      have h : q.length + 16 - 16 = q.length := by omega
      rw [h]
      exact List.take_left q (toyTag iv p)
    rw [htake, if_neg]
    intro hcond
    have htags : toyTag iv p = toyTag iv q := List.append_cancel_left hcond
    unfold toyTag at htags
    have hrest : [p.sum % 256, 0, 0, 0] = [q.sum % 256, 0, 0, 0] :=
      List.append_cancel_left htags
    simp only [List.cons.injEq] at hrest
    exact hmod hrest.1.symm
  · -- flip in the tag: stored copy no longer matches the recomputation
    have hge : 8 * p.length ≤ j := by omega
    have hflip : listFlip (toyEnc k iv p) j =
        p ++ listFlip (toyTag iv p) (j - 8 * p.length) := by
      unfold toyEnc
      exact listFlip_append_right p (toyTag iv p) j hge
    set j2 := j - 8 * p.length with hj2
    have hidx : j2 / 8 < 16 := by omega
    set tag2 := listFlip (toyTag iv p) j2 with htag2
    have htag2len : tag2.length = 16 := by rw [htag2, listFlip_length, htag]
    have htagne : tag2 ≠ toyTag iv p := by
      rw [htag2]
      unfold listFlip
      exact set_ne_self _ _ _ (by omega) (flipBitVal_ne _ _)
    rw [hflip]
    unfold toyDec
    have hlen2 : (p ++ tag2).length = p.length + 16 := by simp [htag2len]
    rw [if_pos (by omega)]
    have htake : (p ++ tag2).take ((p ++ tag2).length - 16) = p := by
      rw [hlen2]
      have h : p.length + 16 - 16 = p.length := by omega
      rw [h]
      exact List.take_left p tag2
    rw [htake, if_neg]
    intro hcond
    exact htagne (List.append_cancel_left hcond)

theorem toyDecodeT_toyEncodeT (s : List Nat) : toyDecodeT (toyEncodeT s) = s := by
  induction s with
  | nil => rfl
  | cons v rest ih =>
      simp only [toyEncodeT, toyDecodeT, ih, List.cons.injEq, and_true]
      omega

theorem toyEncodeT_bytes (s : List Nat) (hs : ∀ x ∈ s, x < 1114112) :
    ∀ x ∈ toyEncodeT s, x < 256 := by
  induction s with
  | nil => intro x hx; simp [toyEncodeT] at hx
  | cons v rest ih =>
      intro x hx
      have hv : v < 1114112 := hs v (by simp)
      simp only [toyEncodeT, List.mem_cons] at hx
      rcases hx with h | h | h | h | h
      · rw [h]; exact Nat.mod_lt _ (by omega)
      · rw [h]; exact Nat.mod_lt _ (by omega)
      · rw [h]; exact Nat.mod_lt _ (by omega)
      · rw [h]; omega
      · exact ih (fun y hy => hs y (by simp [hy])) x h

/-- Concrete platform: the toy cipher and codec packaged with their
contract proofs, used to instantiate the abstract theorems. -/
def toyPlatform : Platform where
  enc := toyEnc
  dec := toyDec
  encodeT := toyEncodeT
  decodeT := toyDecodeT
  pbkdf2 := fun pw salt iters len => pw ++ salt ++ [iters, len]
  dec_enc := toyDec_toyEnc
  auth := toyDec_auth
  enc_len := toyEnc_length
  enc_bytes := toyEnc_bytes
  enc_inj := toyEnc_inj
  flip_reject := toyDec_flip
  encodeT_bytes := toyEncodeT_bytes
  decodeT_encodeT := toyDecodeT_toyEncodeT

/-! ## Derived facts about the decryption pipeline -/

theorem decryptString_none (P : Platform) (s k : List Nat)
    (h : base64ToArrayBuffer s = none) :
    decryptString P s k = .error .MalformedEncoding := by
  unfold decryptString
  rw [h]

theorem decryptString_some (P : Platform) (s k c : List Nat)
    (h : base64ToArrayBuffer s = some c) :
    decryptString P s k =
      (match P.dec k (c.take IV_LENGTH) (c.drop IV_LENGTH) with
       | none => Except.error CryptoError.DecryptionFailed
       | some d => Except.ok (P.decodeT d)) := by
  unfold decryptString
  rw [h]

theorem decryptBinary_none (P : Platform) (s k : List Nat)
    (h : base64ToArrayBuffer s = none) :
    decryptBinary P s k = .error .MalformedEncoding := by
  unfold decryptBinary
  rw [h]

theorem decryptBinary_some (P : Platform) (s k c : List Nat)
    (h : base64ToArrayBuffer s = some c) :
    decryptBinary P s k =
      (match P.dec k (c.take IV_LENGTH) (c.drop IV_LENGTH) with
       | none => Except.error CryptoError.DecryptionFailed
       | some d => Except.ok d) := by
  unfold decryptBinary
  rw [h]

/-- Any data shorter than the 16-byte tag is rejected by the AEAD: a
consequence of authenticity and the ciphertext length law. -/
theorem Platform.dec_short (P : Platform) (k iv c : List Nat)
    (h : c.length < 16) : P.dec k iv c = none := by
  cases hd : P.dec k iv c with
  | none => rfl
  | some p =>
      have hc := P.auth k iv c p hd
      have hl := P.enc_len k iv p
      rw [hc] at h
      omega

theorem decryptString_error_kind (P : Platform) (s k : List Nat)
    (e : CryptoError) (h : decryptString P s k = .error e) :
    e = .MalformedEncoding ∨ e = .DecryptionFailed := by
  cases hb : base64ToArrayBuffer s with
  | none =>
      rw [decryptString_none P s k hb] at h
      injection h with he
      exact Or.inl he.symm
  | some c =>
      rw [decryptString_some P s k c hb] at h
      cases hd : P.dec k (c.take IV_LENGTH) (c.drop IV_LENGTH) with
      | none =>
          rw [hd] at h
          injection h with he
          exact Or.inr he.symm
      | some d =>
          rw [hd] at h
          cases h

theorem decryptBinary_error_kind (P : Platform) (s k : List Nat)
    (e : CryptoError) (h : decryptBinary P s k = .error e) :
    e = .MalformedEncoding ∨ e = .DecryptionFailed := by
  cases hb : base64ToArrayBuffer s with
  | none =>
      rw [decryptBinary_none P s k hb] at h
      injection h with he
      exact Or.inl he.symm
  | some c =>
      rw [decryptBinary_some P s k c hb] at h
      cases hd : P.dec k (c.take IV_LENGTH) (c.drop IV_LENGTH) with
      | none =>
          rw [hd] at h
          injection h with he
          exact Or.inr he.symm
      | some d =>
          rw [hd] at h
          cases h

theorem decryptBinary_encryptBinary (P : Platform) (iv d k : List Nat)
    (hlen : iv.length = IV_LENGTH) (hiv : ∀ x ∈ iv, x < 256)
    (hd : ∀ x ∈ d, x < 256) :
    decryptBinary P (encryptBinary P iv d k) k = .ok d := by
  have hbytes : ∀ x ∈ iv ++ P.enc k iv d, x < 256 := by
    intro x hx
    rcases List.mem_append.mp hx with h | h
    · exact hiv x h
    · exact P.enc_bytes k iv d hiv hd x h
  have hdecode : base64ToArrayBuffer (encryptBinary P iv d k) =
      some (iv ++ P.enc k iv d) := b64decode_b64encode _ hbytes
  rw [decryptBinary_some P _ k _ hdecode]
  have htake : (iv ++ P.enc k iv d).take IV_LENGTH = iv := by
    rw [show IV_LENGTH = iv.length from hlen.symm]
    exact List.take_left iv _
  have hdrop : (iv ++ P.enc k iv d).drop IV_LENGTH = P.enc k iv d := by
    rw [show IV_LENGTH = iv.length from hlen.symm]
    exact List.drop_left iv _
  rw [htake, hdrop, P.dec_enc]

theorem decryptString_encryptString (P : Platform) (iv p k : List Nat)
    (hlen : iv.length = IV_LENGTH) (hiv : ∀ x ∈ iv, x < 256)
    (hp : ∀ x ∈ p, x < 1114112) :
    decryptString P (encryptString P iv p k) k = .ok p := by
  have hbytes : ∀ x ∈ iv ++ P.enc k iv (P.encodeT p), x < 256 := by
    intro x hx
    rcases List.mem_append.mp hx with h | h
    · exact hiv x h
    · exact P.enc_bytes k iv _ hiv (P.encodeT_bytes p hp) x h
  have hdecode : base64ToArrayBuffer (encryptString P iv p k) =
      some (iv ++ P.enc k iv (P.encodeT p)) := b64decode_b64encode _ hbytes
  rw [decryptString_some P _ k _ hdecode]
  have htake : (iv ++ P.enc k iv (P.encodeT p)).take IV_LENGTH = iv := by
    rw [show IV_LENGTH = iv.length from hlen.symm]
    exact List.take_left iv _
  have hdrop : (iv ++ P.enc k iv (P.encodeT p)).drop IV_LENGTH =
      P.enc k iv (P.encodeT p) := by
    rw [show IV_LENGTH = iv.length from hlen.symm]
    exact List.drop_left iv _
  rw [htake, hdrop, P.dec_enc]
  exact congrArg Except.ok (P.decodeT_encodeT p)

/-! ## Claim theorems -/

/-- Claim C7: transport-encoding round trip — for every byte array `b`,
`base64ToArrayBuffer (arrayBufferToBase64 b)` returns exactly `b`; the
binary-to-text encoding is lossless and reversible. -/
theorem c7_transport_roundtrip (b : List Nat) (hb : ∀ x ∈ b, x < 256) :
    base64ToArrayBuffer (arrayBufferToBase64 b) = some b :=
  b64decode_b64encode b hb

/-- Witness for C7 at a concrete byte array. -/
theorem c7_transport_roundtrip_witness :
    (∀ x ∈ [0, 1, 77, 97, 110, 255], x < 256) ∧
    base64ToArrayBuffer (arrayBufferToBase64 [0, 1, 77, 97, 110, 255]) =
      some [0, 1, 77, 97, 110, 255] :=
  ⟨by decide, c7_transport_roundtrip [0, 1, 77, 97, 110, 255] (by decide)⟩

/-- Claim C1: round trip of the authenticated cipher — for every
plaintext string `p` and key `k`, decrypting `encryptString p k` under
`k` returns `p`; likewise `decryptBinary (encryptBinary b k) k = b` for
every binary payload `b`.  The freshly drawn 12-byte IV of each call is
the explicit `iv` argument. -/
theorem c1_cipher_roundtrip (P : Platform) (iv p b k : List Nat)
    (hlen : iv.length = IV_LENGTH) (hiv : ∀ x ∈ iv, x < 256)
    (hp : ∀ x ∈ p, x < 1114112) (hb : ∀ x ∈ b, x < 256) :
    decryptString P (encryptString P iv p k) k = .ok p ∧
    decryptBinary P (encryptBinary P iv b k) k = .ok b :=
  ⟨decryptString_encryptString P iv p k hlen hiv hp,
   decryptBinary_encryptBinary P iv b k hlen hiv hb⟩

/-- Witness for C1 on the concrete platform. -/
theorem c1_cipher_roundtrip_witness :
    decryptString toyPlatform
      (encryptString toyPlatform (List.replicate 12 0) [72, 105] [1, 2]) [1, 2] =
      .ok [72, 105] ∧
    decryptBinary toyPlatform
      (encryptBinary toyPlatform (List.replicate 12 0) [0, 255] [1, 2]) [1, 2] =
      .ok [0, 255] :=
  c1_cipher_roundtrip toyPlatform (List.replicate 12 0) [72, 105] [0, 255] [1, 2]
    rfl (by decide) (by decide) (by decide)

/-- Claim C2: nonce freshness — each encryption call draws its own
12-byte nonce, and calls with distinct nonces produce distinct blobs;
hence two calls on the same plaintext and key whose independent CSPRNG
draws differ (which is all that can happen up to the negligible
collision event, idealized here as the hypothesis `iv1 ≠ iv2`) yield two
different blobs, for `encryptString` and `encryptBinary` alike. -/
theorem c2_nonce_fresh_blobs_differ (P : Platform) (k p b iv1 iv2 : List Nat)
    (hl1 : iv1.length = IV_LENGTH) (hl2 : iv2.length = IV_LENGTH)
    (hb1 : ∀ x ∈ iv1, x < 256) (hb2 : ∀ x ∈ iv2, x < 256)
    (hp : ∀ x ∈ p, x < 1114112) (hby : ∀ x ∈ b, x < 256)
    (hne : iv1 ≠ iv2) :
    encryptString P iv1 p k ≠ encryptString P iv2 p k ∧
    encryptBinary P iv1 b k ≠ encryptBinary P iv2 b k := by
  have key : ∀ c1 c2 : List Nat, (∀ x ∈ c1, x < 256) → (∀ x ∈ c2, x < 256) →
      b64encode (iv1 ++ c1) = b64encode (iv2 ++ c2) → False := by
    intro c1 c2 hc1 hc2 h
    have hbytes1 : ∀ x ∈ iv1 ++ c1, x < 256 := by
      intro x hx
      rcases List.mem_append.mp hx with hh | hh
      · exact hb1 x hh
      · exact hc1 x hh
    have hbytes2 : ∀ x ∈ iv2 ++ c2, x < 256 := by
      intro x hx
      rcases List.mem_append.mp hx with hh | hh
      · exact hb2 x hh
      · exact hc2 x hh
    have happ := b64encode_inj _ _ hbytes1 hbytes2 h
    have hivs := (List.append_inj happ (by rw [hl1, hl2])).1
    exact hne hivs
  constructor
  · intro h
    exact key _ _ (P.enc_bytes k iv1 _ hb1 (P.encodeT_bytes p hp))
      (P.enc_bytes k iv2 _ hb2 (P.encodeT_bytes p hp)) h
  · intro h
    exact key _ _ (P.enc_bytes k iv1 b hb1 hby) (P.enc_bytes k iv2 b hb2 hby) h

/-- Witness for C2 with two distinct concrete nonces. -/
theorem c2_nonce_fresh_blobs_differ_witness :
    encryptString toyPlatform (List.replicate 12 0) [72] [1] ≠
      encryptString toyPlatform (List.replicate 12 1) [72] [1] ∧
    encryptBinary toyPlatform (List.replicate 12 0) [9] [1] ≠
      encryptBinary toyPlatform (List.replicate 12 1) [9] [1] :=
  c2_nonce_fresh_blobs_differ toyPlatform [1] [72] [9]
    (List.replicate 12 0) (List.replicate 12 1)
    rfl rfl (by decide) (by decide) (by decide) (by decide) (by decide)

/-- Claim C4: KDF determinism — `deriveKeyFromPassword` is a pure
function of password and salt: equal inputs give bit-identical keys, and
the derived key is exactly the PBKDF2 output over the UTF-8 password and
decoded salt at the fixed iteration count and key length. -/
theorem c4_kdf_deterministic (P : Platform) (pw salt pw2 salt2 : List Nat)
    (hpw : pw = pw2) (hsalt : salt = salt2) :
    deriveKeyFromPassword P pw salt = deriveKeyFromPassword P pw2 salt2 ∧
    ∀ sb, base64ToArrayBuffer salt = some sb →
      deriveKeyFromPassword P pw salt =
        .ok (P.pbkdf2 (P.encodeT pw) sb PBKDF2_ITERATIONS KEY_LENGTH) := by
  subst hpw
  subst hsalt
  refine ⟨rfl, ?_⟩
  intro sb hsb
  unfold deriveKeyFromPassword
  rw [hsb]

/-- Witness for C4 at concrete inputs. -/
theorem c4_kdf_deterministic_witness :
    deriveKeyFromPassword toyPlatform [112, 119] [] =
      deriveKeyFromPassword toyPlatform [112, 119] [] ∧
    ∀ sb, base64ToArrayBuffer [] = some sb →
      deriveKeyFromPassword toyPlatform [112, 119] [] =
        .ok (toyPlatform.pbkdf2 (toyPlatform.encodeT [112, 119]) sb
          PBKDF2_ITERATIONS KEY_LENGTH) :=
  c4_kdf_deterministic toyPlatform [112, 119] [] [112, 119] [] rfl rfl

/-- Claim C5: blob wire format — every blob is
`base64(nonce 12 bytes || AEAD ciphertext and tag)` with no version byte
or header, and decryption decodes the transport text and splits exactly
the first 12 bytes as the nonce, passing the remainder to authenticated
decryption. -/
theorem c5_blob_wire_format (P : Platform) (iv p d k : List Nat)
    (hlen : iv.length = IV_LENGTH) (hiv : ∀ x ∈ iv, x < 256)
    (hp : ∀ x ∈ p, x < 1114112) (hd : ∀ x ∈ d, x < 256) :
    encryptString P iv p k = b64encode (iv ++ P.enc k iv (P.encodeT p)) ∧
    encryptBinary P iv d k = b64encode (iv ++ P.enc k iv d) ∧
    base64ToArrayBuffer (encryptString P iv p k) =
      some (iv ++ P.enc k iv (P.encodeT p)) ∧
    (iv ++ P.enc k iv (P.encodeT p)).take IV_LENGTH = iv ∧
    (iv ++ P.enc k iv (P.encodeT p)).drop IV_LENGTH = P.enc k iv (P.encodeT p) ∧
    (∀ blob c, base64ToArrayBuffer blob = some c →
      decryptString P blob k =
        (match P.dec k (c.take IV_LENGTH) (c.drop IV_LENGTH) with
         | none => Except.error CryptoError.DecryptionFailed
         | some dd => Except.ok (P.decodeT dd))) ∧
    (∀ blob c, base64ToArrayBuffer blob = some c →
      decryptBinary P blob k =
        (match P.dec k (c.take IV_LENGTH) (c.drop IV_LENGTH) with
         | none => Except.error CryptoError.DecryptionFailed
         | some dd => Except.ok dd)) := by
  have hbytes : ∀ x ∈ iv ++ P.enc k iv (P.encodeT p), x < 256 := by
    intro x hx
    rcases List.mem_append.mp hx with h | h
    · exact hiv x h
    · exact P.enc_bytes k iv _ hiv (P.encodeT_bytes p hp) x h
  refine ⟨rfl, rfl, b64decode_b64encode _ hbytes, ?_, ?_, ?_, ?_⟩
  · rw [show IV_LENGTH = iv.length from hlen.symm]
    exact List.take_left iv _
  · rw [show IV_LENGTH = iv.length from hlen.symm]
    exact List.drop_left iv _
  · intro blob c hc
    exact decryptString_some P blob k c hc
  · intro blob c hc
    exact decryptBinary_some P blob k c hc

/-- Witness for C5 at concrete inputs. -/
theorem c5_blob_wire_format_witness :
    encryptString toyPlatform (List.replicate 12 0) [72] [1] =
      b64encode (List.replicate 12 0 ++
        toyPlatform.enc [1] (List.replicate 12 0) (toyPlatform.encodeT [72])) ∧
    encryptBinary toyPlatform (List.replicate 12 0) [9] [1] =
      b64encode (List.replicate 12 0 ++
        toyPlatform.enc [1] (List.replicate 12 0) [9]) ∧
    base64ToArrayBuffer (encryptString toyPlatform (List.replicate 12 0) [72] [1]) =
      some (List.replicate 12 0 ++
        toyPlatform.enc [1] (List.replicate 12 0) (toyPlatform.encodeT [72])) ∧
    (List.replicate 12 0 ++
      toyPlatform.enc [1] (List.replicate 12 0) (toyPlatform.encodeT [72])).take
        IV_LENGTH = List.replicate 12 0 ∧
    (List.replicate 12 0 ++
      toyPlatform.enc [1] (List.replicate 12 0) (toyPlatform.encodeT [72])).drop
        IV_LENGTH = toyPlatform.enc [1] (List.replicate 12 0)
          (toyPlatform.encodeT [72]) ∧
    (∀ blob c, base64ToArrayBuffer blob = some c →
      decryptString toyPlatform blob [1] =
        (match toyPlatform.dec [1] (c.take IV_LENGTH) (c.drop IV_LENGTH) with
         | none => Except.error CryptoError.DecryptionFailed
         | some dd => Except.ok (toyPlatform.decodeT dd))) ∧
    (∀ blob c, base64ToArrayBuffer blob = some c →
      decryptBinary toyPlatform blob [1] =
        (match toyPlatform.dec [1] (c.take IV_LENGTH) (c.drop IV_LENGTH) with
         | none => Except.error CryptoError.DecryptionFailed
         | some dd => Except.ok dd)) :=
  c5_blob_wire_format toyPlatform (List.replicate 12 0) [72] [9] [1]
    rfl (by decide) (by decide) (by decide)

/-! ## Service operations in the Ready state -/

theorem encryptNote_ready (P : Platform) (svc : EncryptionService)
    (k iv1 iv2 title content : List Nat) (hk : svc.key = some k) :
    svc.encryptNote P iv1 iv2 title content =
      .ok (encryptString P iv1 title k, encryptString P iv2 content k) := by
  unfold EncryptionService.encryptNote
  rw [hk]

theorem decryptNote_ready (P : Platform) (svc : EncryptionService)
    (k title content : List Nat) (hk : svc.key = some k) :
    svc.decryptNote P title content =
      (match decryptString P title k with
       | .error e => .error e
       | .ok t =>
           match if content.isEmpty then Except.ok [] else decryptString P content k with
           | .error e => .error e
           | .ok c => .ok (t, c)) := by
  unfold EncryptionService.decryptNote
  rw [hk]

theorem encryptImage_ready (P : Platform) (svc : EncryptionService)
    (k iv d : List Nat) (hk : svc.key = some k) :
    svc.encryptImage P iv d = .ok (encryptBinary P iv d k) := by
  unfold EncryptionService.encryptImage
  rw [hk]

theorem decryptImage_ready (P : Platform) (svc : EncryptionService)
    (k d : List Nat) (hk : svc.key = some k) :
    svc.decryptImage P d = decryptBinary P d k := by
  unfold EncryptionService.decryptImage
  rw [hk]

theorem encryptLabel_ready (P : Platform) (svc : EncryptionService)
    (k iv nm : List Nat) (hk : svc.key = some k) :
    svc.encryptLabel P iv nm = .ok (encryptString P iv nm k) := by
  unfold EncryptionService.encryptLabel
  rw [hk]

theorem decryptLabel_ready (P : Platform) (svc : EncryptionService)
    (k nm : List Nat) (hk : svc.key = some k) :
    svc.decryptLabel P nm = decryptString P nm k := by
  unfold EncryptionService.decryptLabel
  rw [hk]

/-- Claim C6: session lifecycle — after `clear()` every high-level
operation of the `EncryptionService` fails with `NotInitialized`, and
after a completed `initialize(password, salt)` none of them raises
`NotInitialized`. -/
theorem c6_session_lifecycle (P : Platform) (svc svc' : EncryptionService)
    (password salt iv1 iv2 iv3 iv4 t c img lbl nm : List Nat)
    (hinit : svc.initialize P password salt = .ok svc') :
    (svc.clear.encryptNote P iv1 iv2 t c = .error .NotInitialized ∧
     svc.clear.decryptNote P t c = .error .NotInitialized ∧
     svc.clear.encryptImage P iv3 img = .error .NotInitialized ∧
     svc.clear.decryptImage P img = .error .NotInitialized ∧
     svc.clear.encryptLabel P iv4 lbl = .error .NotInitialized ∧
     svc.clear.decryptLabel P nm = .error .NotInitialized) ∧
    (svc'.encryptNote P iv1 iv2 t c ≠ .error .NotInitialized ∧
     svc'.decryptNote P t c ≠ .error .NotInitialized ∧
     svc'.encryptImage P iv3 img ≠ .error .NotInitialized ∧
     svc'.decryptImage P img ≠ .error .NotInitialized ∧
     svc'.encryptLabel P iv4 lbl ≠ .error .NotInitialized ∧
     svc'.decryptLabel P nm ≠ .error .NotInitialized) := by
  have hkk : ∃ kk, svc'.key = some kk := by
    unfold EncryptionService.initialize at hinit
    cases hd : deriveKeyFromPassword P password salt with
    | error e => rw [hd] at hinit; cases hinit
    | ok kk =>
        rw [hd] at hinit
        injection hinit with h
        exact ⟨kk, by rw [← h]⟩
  obtain ⟨kk, hkey⟩ := hkk
  refine ⟨⟨rfl, rfl, rfl, rfl, rfl, rfl⟩, ?_, ?_, ?_, ?_, ?_, ?_⟩
  · rw [encryptNote_ready P svc' kk iv1 iv2 t c hkey]
    intro h
    cases h
  · rw [decryptNote_ready P svc' kk t c hkey]
    cases h1 : decryptString P t kk with
    | error e =>
        intro h
        injection h with he
        subst he
        rcases decryptString_error_kind P t kk _ h1 with he | he <;> cases he
    | ok td =>
        cases h2 : (if c.isEmpty then Except.ok [] else decryptString P c kk) with
        | error e =>
            intro h
            injection h with he
            subst he
            split_ifs at h2 with hc
            rcases decryptString_error_kind P c kk _ h2 with he | he <;> cases he
        | ok cd =>
            intro h
            cases h
  · rw [encryptImage_ready P svc' kk iv3 img hkey]
    intro h
    cases h
  · rw [decryptImage_ready P svc' kk img hkey]
    intro h
    rcases decryptBinary_error_kind P img kk _ h with he | he <;> cases he
  · rw [encryptLabel_ready P svc' kk iv4 lbl hkey]
    intro h
    cases h
  · rw [decryptLabel_ready P svc' kk nm hkey]
    intro h
    rcases decryptString_error_kind P nm kk _ h with he | he <;> cases he

/-- Witness for C6: a concrete service, cleared and initialized. -/
theorem c6_session_lifecycle_witness :
    ((EncryptionService.mk none none).clear.encryptNote toyPlatform [] [] [] [] =
        .error .NotInitialized ∧
     (EncryptionService.mk none none).clear.decryptNote toyPlatform [] [] =
        .error .NotInitialized ∧
     (EncryptionService.mk none none).clear.encryptImage toyPlatform [] [] =
        .error .NotInitialized ∧
     (EncryptionService.mk none none).clear.decryptImage toyPlatform [] =
        .error .NotInitialized ∧
     (EncryptionService.mk none none).clear.encryptLabel toyPlatform [] [] =
        .error .NotInitialized ∧
     (EncryptionService.mk none none).clear.decryptLabel toyPlatform [] =
        .error .NotInitialized) ∧
    ((EncryptionService.mk (some [600000, 256]) (some [])).encryptNote
        toyPlatform [] [] [] [] ≠ .error .NotInitialized ∧
     (EncryptionService.mk (some [600000, 256]) (some [])).decryptNote
        toyPlatform [] [] ≠ .error .NotInitialized ∧
     (EncryptionService.mk (some [600000, 256]) (some [])).encryptImage
        toyPlatform [] [] ≠ .error .NotInitialized ∧
     (EncryptionService.mk (some [600000, 256]) (some [])).decryptImage
        toyPlatform [] ≠ .error .NotInitialized ∧
     (EncryptionService.mk (some [600000, 256]) (some [])).encryptLabel
        toyPlatform [] [] ≠ .error .NotInitialized ∧
     (EncryptionService.mk (some [600000, 256]) (some [])).decryptLabel
        toyPlatform [] ≠ .error .NotInitialized) :=
  c6_session_lifecycle toyPlatform (EncryptionService.mk none none)
    (EncryptionService.mk (some [600000, 256]) (some []))
    [] [] [] [] [] [] [] [] [] [] [] rfl

/-- Claim C9: truncated-blob safety — if a blob's decoded byte length is
shorter than the 12-byte nonce length, `decryptString` fails with
`MalformedEncoding` or `DecryptionFailed` and with no other fault. -/
theorem c9_truncated_blob_safe (P : Platform) (k blob : List Nat)
    (h : ∀ c, base64ToArrayBuffer blob = some c → c.length < IV_LENGTH) :
    decryptString P blob k = .error .MalformedEncoding ∨
    decryptString P blob k = .error .DecryptionFailed := by
  cases hb : base64ToArrayBuffer blob with
  | none => exact Or.inl (decryptString_none P blob k hb)
  | some c =>
      right
      rw [decryptString_some P blob k c hb]
      have hc : c.length < 12 := h c hb
      have hdrop : c.drop IV_LENGTH = [] :=
        List.drop_eq_nil_of_le (show c.length ≤ IV_LENGTH by
          simp only [IV_LENGTH]; omega)
      rw [hdrop, P.dec_short k _ [] (by simp)]

/-- Witness for C9 at a concrete short blob. -/
theorem c9_truncated_blob_safe_witness :
    decryptString toyPlatform [81, 81, 61, 61] [] = .error .MalformedEncoding ∨
    decryptString toyPlatform [81, 81, 61, 61] [] = .error .DecryptionFailed :=
  c9_truncated_blob_safe toyPlatform [] [81, 81, 61, 61]
    (fun c hc => by
      rw [show base64ToArrayBuffer [81, 81, 61, 61] = some [65] from rfl] at hc
      injection hc with h
      rw [← h]
      simp [IV_LENGTH])

/-- Claim C10: empty-content bypass — on an initialized service,
`decryptNote t ""` never decrypts the content argument: it returns
content `""` and its outcome is exactly the title decryption's outcome;
yet `encryptNote` of an empty content always encrypts it into a
non-empty blob. -/
theorem c10_empty_content_bypass (P : Platform) (svc : EncryptionService)
    (k title iv1 iv2 : List Nat) (hk : svc.key = some k) :
    svc.decryptNote P title [] =
      Except.map (fun td => (td, ([] : List Nat))) (decryptString P title k) ∧
    svc.encryptNote P iv1 iv2 title [] =
      .ok (encryptString P iv1 title k, encryptString P iv2 [] k) ∧
    encryptString P iv2 [] k ≠ [] := by
  refine ⟨?_, ?_, ?_⟩
  · rw [decryptNote_ready P svc k title [] hk]
    cases h1 : decryptString P title k with
    | error e => rfl
    | ok td => rfl
  · exact encryptNote_ready P svc k iv1 iv2 title [] hk
  · unfold encryptString
    apply b64encode_ne_nil
    intro hnil
    have := congrArg List.length hnil
    simp only [List.length_append, P.enc_len, List.length_nil] at this
    omega

/-- Witness for C10 on a concrete initialized service. -/
theorem c10_empty_content_bypass_witness :
    (EncryptionService.mk (some [1]) (some [])).decryptNote toyPlatform
        (encryptString toyPlatform (List.replicate 12 0) [72] [1]) [] =
      Except.map (fun td => (td, ([] : List Nat)))
        (decryptString toyPlatform
          (encryptString toyPlatform (List.replicate 12 0) [72] [1]) [1]) ∧
    (EncryptionService.mk (some [1]) (some [])).encryptNote toyPlatform
        (List.replicate 12 0) (List.replicate 12 0)
        (encryptString toyPlatform (List.replicate 12 0) [72] [1]) [] =
      .ok (encryptString toyPlatform (List.replicate 12 0)
            (encryptString toyPlatform (List.replicate 12 0) [72] [1]) [1],
           encryptString toyPlatform (List.replicate 12 0) [] [1]) ∧
    encryptString toyPlatform (List.replicate 12 0) [] [1] ≠ [] :=
  c10_empty_content_bypass toyPlatform (EncryptionService.mk (some [1]) (some []))
    [1] (encryptString toyPlatform (List.replicate 12 0) [72] [1])
    (List.replicate 12 0) (List.replicate 12 0) rfl

/-- Counterexample to C3 as literally stated: flipping the very first
bit of a valid blob (its first base64 character `A`, code 65, becomes the
non-alphabet code 64) makes `decryptString` fail with
`MalformedEncoding`, not with `DecryptionFailed`. -/
theorem c3_textflip_counterexample :
    decryptString toyPlatform
      (listFlip (encryptString toyPlatform (List.replicate 12 0) [] []) 0) [] =
      .error .MalformedEncoding ∧
    CryptoError.MalformedEncoding ≠ CryptoError.DecryptionFailed :=
  ⟨rfl, by decide⟩

/-- Claim C3 (amended): tamper detection at the byte level — flipping
any single bit of the decoded bytes of a valid blob (nonce or
ciphertext) makes `decryptString` fail with `DecryptionFailed`; it never
returns altered plaintext.  Flips applied to the base64 text itself can
instead fail with `MalformedEncoding` when they leave the alphabet (see
the counterexample). -/
theorem c3_bitflip_decryption_failed (P : Platform) (k iv p : List Nat) (j : Nat)
    (hlen : iv.length = IV_LENGTH) (hiv : ∀ x ∈ iv, x < 256)
    (hp : ∀ x ∈ p, x < 1114112)
    (hj : j < 8 * (iv ++ P.enc k iv (P.encodeT p)).length) :
    decryptString P
      (arrayBufferToBase64 (listFlip (iv ++ P.enc k iv (P.encodeT p)) j)) k =
      .error .DecryptionFailed := by
  have hl12 : iv.length = 12 := hlen
  have hbytes : ∀ x ∈ iv ++ P.enc k iv (P.encodeT p), x < 256 := by
    intro x hx
    rcases List.mem_append.mp hx with h | h
    · exact hiv x h
    · exact P.enc_bytes k iv _ hiv (P.encodeT_bytes p hp) x h
  have hflipbytes : ∀ x ∈ listFlip (iv ++ P.enc k iv (P.encodeT p)) j, x < 256 :=
    listFlip_bytes _ j hbytes hj
  have hdecode : base64ToArrayBuffer
      (arrayBufferToBase64 (listFlip (iv ++ P.enc k iv (P.encodeT p)) j)) =
      some (listFlip (iv ++ P.enc k iv (P.encodeT p)) j) :=
    b64decode_b64encode _ hflipbytes
  rw [decryptString_some P _ k _ hdecode]
  by_cases hcase : j < 8 * iv.length
  · -- the flip lands in the 12-byte nonce
    have hfl : listFlip (iv ++ P.enc k iv (P.encodeT p)) j =
        listFlip iv j ++ P.enc k iv (P.encodeT p) :=
      listFlip_append_left iv _ j hcase
    rw [hfl]
    have hlen2 : (listFlip iv j).length = 12 := by
      rw [listFlip_length]; exact hl12
    have htake : (listFlip iv j ++ P.enc k iv (P.encodeT p)).take IV_LENGTH =
        listFlip iv j := by
      rw [show IV_LENGTH = (listFlip iv j).length from hlen2.symm]
      exact List.take_left _ _
    have hdrop : (listFlip iv j ++ P.enc k iv (P.encodeT p)).drop IV_LENGTH =
        P.enc k iv (P.encodeT p) := by
      rw [show IV_LENGTH = (listFlip iv j).length from hlen2.symm]
      exact List.drop_left _ _
    rw [htake, hdrop]
    have hdec : P.dec k (listFlip iv j) (P.enc k iv (P.encodeT p)) = none := by
      cases hd : P.dec k (listFlip iv j) (P.enc k iv (P.encodeT p)) with
      | none => rfl
      | some q =>
          have hc := P.auth k _ _ q hd
          have hinj := P.enc_inj k iv (listFlip iv j) (P.encodeT p) q hl12 hlen2 hc
          have hivne : listFlip iv j ≠ iv := by
            unfold listFlip
            exact set_ne_self iv _ _ (by omega) (flipBitVal_ne _ _)
          exact absurd hinj.1.symm hivne
    rw [hdec]
  · -- the flip lands in the AEAD ciphertext
    push_neg at hcase
    have hfl : listFlip (iv ++ P.enc k iv (P.encodeT p)) j =
        iv ++ listFlip (P.enc k iv (P.encodeT p)) (j - 8 * iv.length) :=
      listFlip_append_right iv _ j hcase
    rw [hfl]
    have htake : (iv ++ listFlip (P.enc k iv (P.encodeT p)) (j - 8 * iv.length)).take
        IV_LENGTH = iv := by
      rw [show IV_LENGTH = iv.length from hl12.symm]
      exact List.take_left _ _
    have hdrop : (iv ++ listFlip (P.enc k iv (P.encodeT p)) (j - 8 * iv.length)).drop
        IV_LENGTH = listFlip (P.enc k iv (P.encodeT p)) (j - 8 * iv.length) := by
      rw [show IV_LENGTH = iv.length from hl12.symm]
      exact List.drop_left _ _
    rw [htake, hdrop]
    have hbound : j - 8 * iv.length < 8 * (P.enc k iv (P.encodeT p)).length := by
      rw [List.length_append] at hj
      omega
    rw [P.flip_reject k iv (P.encodeT p) (j - 8 * iv.length) hbound]

/-- Witness for the amended C3 with the flip in the first ciphertext byte. -/
theorem c3_bitflip_decryption_failed_witness :
    decryptString toyPlatform
      (arrayBufferToBase64 (listFlip
        (List.replicate 12 0 ++
          toyPlatform.enc [] (List.replicate 12 0) (toyPlatform.encodeT [])) 96)) [] =
      .error .DecryptionFailed :=
  c3_bitflip_decryption_failed toyPlatform [] (List.replicate 12 0) [] 96
    rfl (by decide) (by decide) (by decide)

theorem valsOf_eq_none_iff (l : List Nat) :
    valsOf l = none ↔ ∃ c ∈ l, charVal c = none := by
  induction l with
  | nil => simp [valsOf]
  | cons c rest ih =>
      cases hc : charVal c with
      | none =>
          apply iff_of_true
          · unfold valsOf
            rw [hc]
          · exact ⟨c, by simp, hc⟩
      | some v =>
          cases hv : valsOf rest with
          | none =>
              apply iff_of_true
              · unfold valsOf
                rw [hc, hv]
              · obtain ⟨x, hx1, hx2⟩ := ih.mp hv
                exact ⟨x, by simp [hx1], hx2⟩
          | some vs =>
              apply iff_of_false
              · unfold valsOf
                rw [hc, hv]
                simp
              · rintro ⟨x, hx1, hx2⟩
                rcases List.mem_cons.mp hx1 with rfl | hx1
                · rw [hc] at hx2; cases hx2
                · have h2 := ih.mpr ⟨x, hx1, hx2⟩
                  rw [hv] at h2; cases h2

/-- Counterexample to C8 as literally stated: the text `QR` (codes
`[81, 82]`) is not a valid transport encoding — it is not the encoding
of any byte array, since `btoa` output length is always a multiple of
four — yet `atob` accepts it, silently discarding the nonzero leftover
bits, and decoding returns `[65]` instead of failing. -/
theorem c8_forgiving_counterexample :
    (¬ ∃ b : List Nat, arrayBufferToBase64 b = [81, 82]) ∧
    base64ToArrayBuffer [81, 82] = some [65] := by
  constructor
  · rintro ⟨b, hb⟩
    have hmod := b64encode_len_mod4 b
    rw [show arrayBufferToBase64 b = b64encode b from rfl] at hb
    rw [hb] at hmod
    simp at hmod
  · rfl

/-- Claim C8 (amended): `base64ToArrayBuffer` fails (with
`MalformedEncoding`) exactly on the inputs forgiving-base64 rejects —
those which, after stripping ASCII whitespace and canonical padding,
have length 1 mod 4 or contain a character outside the base64 alphabet.
It is not strict: some inputs outside the encoder's image (unpadded
text, nonzero discarded bits) are accepted rather than rejected. -/
theorem c8_malformed_rejection (s : List Nat) :
    base64ToArrayBuffer s = none ↔
      ((dropPad (s.filter (fun c => !isB64Ws c))).length % 4 = 1 ∨
       ∃ c ∈ dropPad (s.filter (fun c => !isB64Ws c)), charVal c = none) := by
  show (if (dropPad (s.filter (fun c => !isB64Ws c))).length % 4 = 1 then none
        else match valsOf (dropPad (s.filter (fun c => !isB64Ws c))) with
          | none => none
          | some vs => some (decodeVals vs)) = none ↔ _
  split_ifs with h1
  · exact iff_of_true rfl (Or.inl h1)
  · cases hv : valsOf (dropPad (s.filter (fun c => !isB64Ws c))) with
    | none =>
        exact iff_of_true rfl (Or.inr ((valsOf_eq_none_iff _).mp hv))
    | some vs =>
        apply iff_of_false
        · simp
        · rintro (h | h)
          · exact h1 h
          · have h2 := (valsOf_eq_none_iff _).mpr h
            rw [hv] at h2
            cases h2
